import Mathlib

/-!
Shallow embedding of `src/scan.js` (next-env-auditor).

Text is modelled as `List Char` (`Str`). JavaScript strings, regex scans and
`Map`/`Set` structures are translated as follows:
  * `String.prototype.trim`  → `trimL` (drop whitespace on both ends)
  * `text.split("\n")`       → `splitNl`
  * `String.prototype.includes` → `containsSub`
  * `s.replaceAll(c, r)` for a one-character pattern `c` → `replAll c r`
    (JS `replaceAll` scans left to right without rescanning replacements,
    which for a single-character pattern is exactly per-character expansion)
  * the two global regexes `/process\.env\.([A-Z0-9_]+)/g` and
    `/process\.env\[['"]([A-Z0-9_]+)['"]\]/g` → `scanDot` / `scanBracket`:
    leftmost non-overlapping matches, greedy `+` (maximal run of the
    character class), continuing after each match end
  * `Map` insertion order → association list `List (Str × List Occ)`
  * `Set` built by repeated `add` → insertion-ordered duplicate-free list.
-/

/-- Characters that are awkward as literals are named. -/
def nlC : Char := Char.ofNat 10

def dqC : Char := Char.ofNat 34

def sqC : Char := Char.ofNat 39

def bsC : Char := Char.ofNat 92

def hashC : Char := Char.ofNat 35

def eqC : Char := Char.ofNat 61

abbrev Str := List Char

/-- JS `String.prototype.trim`: strip leading and trailing whitespace. -/
def trimL (l : Str) : Str := ((l.dropWhile Char.isWhitespace).reverse.dropWhile Char.isWhitespace).reverse

/-- JS `text.split("\n")`: a newline ends the current piece; any other
character is prepended to the first piece of the split of the rest (the
result is never empty, so `headD`/`tail` just name its parts). -/
def splitNl : Str → List Str
  | [] => [[]]
  | c :: rest =>
    if c = nlC then [] :: splitNl rest
    else (c :: (splitNl rest).headD []) :: (splitNl rest).tail

/-- JS `hay.includes(needle)`. -/
def containsSub : Str → Str → Bool
  | [], needle => needle.isEmpty
  | c :: t, needle => needle.isPrefixOf (c :: t) || containsSub t needle

/-- JS `Set.prototype.add` on an insertion-ordered duplicate-free list. -/
def addSet (s : List Str) (k : Str) : List Str := if s.contains k then s else s ++ [k]

/-- One iteration of the loop of `parseEnvKeys` (scan.js lines 18-25). -/
def parseLine (keys : List Str) (raw : Str) : List Str :=
  let line := trimL raw
  if line = [] then keys
  else if [hashC].isPrefixOf line then keys
  else
    let pre := line.takeWhile (fun c => c != eqC)
    if pre.length = line.length then keys
    else
      let key := trimL pre
      if key = [] then keys else addSet keys key

/-- `parseEnvKeys` (scan.js lines 16-27). -/
def parseEnvKeys (envText : Str) : List Str := (splitNl envText).foldl parseLine []

/-- `looksSensitiveName` (scan.js lines 29-31): the case-insensitive regex
`/KEY|TOKEN|SECRET|PRIVATE|PASSWORD|PASS|AUTH/i` as an uppercase-normalised
substring test (the alternatives are ASCII uppercase words). -/
def looksSensitiveName (key : Str) : Bool :=
  let u := key.map Char.toUpper
  containsSub u "KEY".toList || containsSub u "TOKEN".toList || containsSub u "SECRET".toList ||
    containsSub u "PRIVATE".toList || containsSub u "PASSWORD".toList ||
    containsSub u "PASS".toList || containsSub u "AUTH".toList

/-- `isLikelyClientExposedPath` (scan.js lines 33-50). -/
def isLikelyClientExposedPath (relFile : Str) : Bool :=
  let f := relFile.map (fun c => if c = bsC then '/' else c)
  let isAppOrPages := "app/".toList.isPrefixOf f || "pages/".toList.isPrefixOf f ||
    "src/app/".toList.isPrefixOf f || "src/pages/".toList.isPrefixOf f
  let isApi := "app/api/".toList.isPrefixOf f || "src/app/api/".toList.isPrefixOf f ||
    containsSub f "/route.ts".toList || containsSub f "/route.js".toList
  isAppOrPages && !isApi

/-- Per-character expansion; equals JS `replaceAll` for a one-character pattern. -/
def replAll (c : Char) (r : Str) : Str → Str
  | [] => []
  | x :: xs => (if x = c then r else [x]) ++ replAll c r xs

/-- `escapeHtml` (scan.js lines 52-59): five sequential `replaceAll`s. -/
def escapeHtmlL (l : Str) : Str :=
  replAll sqC "&#039;".toList
    (replAll dqC "&quot;".toList
      (replAll '>' "&gt;".toList
        (replAll '<' "&lt;".toList
          (replAll '&' "&amp;".toList l))))

def escapeHtml (s : String) : String := String.mk (escapeHtmlL s.data)

/-- The character class `[A-Z0-9_]` of both regexes. -/
def isEnvChar (c : Char) : Bool :=
  (65 ≤ c.toNat && c.toNat ≤ 90) || (48 ≤ c.toNat && c.toNat ≤ 57) || c = '_'

def peDot : Str := "process.env.".toList

def peBr : Str := "process.env[".toList

/-- Try to match `/process\.env\.([A-Z0-9_]+)/` at the head of `l`:
returns the captured key and the total match length. -/
def tryDot (l : Str) : Option (Str × Nat) :=
  if peDot.isPrefixOf l then
    let key := (l.drop 12).takeWhile isEnvChar
    if key = [] then none else some (key, 12 + key.length)
  else none

def isQuote (c : Char) : Bool := c = sqC || c = dqC

/-- Try to match `/process\.env\[['"]([A-Z0-9_]+)['"]\]/` at the head of `l`.
The two quote positions are matched independently, as in the regex. -/
def tryBracket (l : Str) : Option (Str × Nat) :=
  if peBr.isPrefixOf l then
    match l.drop 12 with
    | [] => none
    | q1 :: rest =>
      if isQuote q1 then
        let key := rest.takeWhile isEnvChar
        if key = [] then none
        else
          match rest.drop key.length with
          | q2 :: close :: _ =>
            if isQuote q2 && close = ']' then some (key, 12 + 1 + key.length + 2) else none
          | _ => none
      else none
  else none

/-- `text.matchAll(re)`: leftmost non-overlapping matches, resuming after each
match end.  Structured on fuel so that it computes by kernel reduction; with
fuel `≥ l.length` the fuel never runs out (each step consumes at least one
character), see `scanWithFuel_fuel_irrel`. -/
def scanWithFuel (try? : Str → Option (Str × Nat)) : Nat → Nat → Str → List (Nat × Str)
  | 0, _, _ => []
  | _ + 1, _, [] => []
  | fuel + 1, pos, c :: rest =>
    match try? (c :: rest) with
    | some (k, len) => (pos, k) :: scanWithFuel try? fuel (pos + len) (rest.drop (len - 1))
    | none => scanWithFuel try? fuel (pos + 1) rest

/-- All matches of the dot-access regex, as (start index, captured key). -/
def scanDot (text : Str) : List (Nat × Str) := scanWithFuel tryDot text.length 0 text

/-- All matches of the bracket-access regex, as (start index, captured key). -/
def scanBracket (text : Str) : List (Nat × Str) := scanWithFuel tryBracket text.length 0 text

/-- `getLineNumber` (scan.js lines 12-14):
`text.slice(0, index).split("\n").length` = newlines before `index`, plus one. -/
def getLineNumber (text : Str) (idx : Nat) : Nat := ((text.take idx).count nlC) + 1

/-- One recorded occurrence (scan.js line 174 object literal). -/
structure Occ where
  file : Str
  line : Nat
  isClient : Bool
  isServerFile : Bool
deriving DecidableEq

def useClientD : Str := dqC :: ("use client".toList ++ [dqC])

def useClientS : Str := sqC :: ("use client".toList ++ [sqC])

/-- scan.js lines 156-157. -/
def fileIsClient (text : Str) : Bool := containsSub text useClientD || containsSub text useClientS

/-- scan.js lines 159-163. -/
def fileIsServerRoute (relFile : Str) : Bool :=
  "app/api/".toList.isPrefixOf relFile || "src/app/api/".toList.isPrefixOf relFile ||
    containsSub relFile "/route.ts".toList || containsSub relFile "/route.js".toList

/-- `used.get(key).push(occ)` preceded by `if (!used.has(key)) used.set(key, [])`:
append to the entry of that key, or append a new entry at the end. -/
def pushOcc : List (Str × List Occ) → Str → Occ → List (Str × List Occ)
  | [], k, o => [(k, [o])]
  | (k0, os) :: rest, k, o =>
    if k = k0 then (k0, os ++ [o]) :: rest else (k0, os) :: pushOcc rest k o

/-- The per-file stream of (key, occurrence) pushes, dot matches first then
bracket matches (scan.js lines 169-183). -/
def fileOccs (relFile text : Str) : List (Str × Occ) :=
  let isClient := fileIsClient text
  let isServer := fileIsServerRoute relFile
  (scanDot text ++ scanBracket text).map
    (fun m => (m.2, ⟨relFile, getLineNumber text m.1, isClient, isServer⟩))

def addFileToUsed (m : List (Str × List Occ)) (relFile text : Str) : List (Str × List Occ) :=
  (fileOccs relFile text).foldl (fun acc ko => pushOcc acc ko.1 ko.2) m

/-- The whole extraction loop (scan.js lines 146-184).  A file whose read
failed is `(relFile, none)` and is skipped (`catch { continue; }`). -/
def buildUsed (files : List (Str × Option Str)) : List (Str × List Occ) :=
  files.foldl (fun m f => match f.2 with | none => m | some t => addFileToUsed m f.1 t) []

def usedKeysOf (m : List (Str × List Occ)) : List Str := m.map (fun e => e.1)

/-- scan.js lines 196-197. -/
def computeMissing (usedKeys provided : List Str) : List Str :=
  if provided.isEmpty then [] else usedKeys.filter (fun k => !(provided.contains k))

/-- scan.js lines 196, 198. -/
def computeUnused (usedKeys provided : List Str) : List Str :=
  if provided.isEmpty then [] else provided.filter (fun k => !(usedKeys.contains k))

inductive RiskKind where
  | sensitiveExposed
  | publicLooksSensitive
  | nonPublicInClient
  | publicOnlyServer
deriving DecidableEq

structure Finding where
  kind : RiskKind
  key : Str
  file : Str
  line : Nat
deriving DecidableEq

def pubPref : Str := "NEXT_PUBLIC_".toList

/-- scan.js lines 206-218: secret-like name referenced in a potentially
client-exposed path; cites the first such occurrence. -/
def rule1Sensitive (missing : List Str) (key : Str) (locations : List Occ) : List Finding :=
  if !(missing.contains key) && looksSensitiveName key then
    match locations.find? (fun x => isLikelyClientExposedPath x.file) with
    | some ex => [⟨.sensitiveExposed, key, ex.file, ex.line⟩]
    | none => []
  else []

/-- scan.js lines 220-234: NEXT_PUBLIC name that looks sensitive; cites
`locations[0]`.  `locations[0]` on the (unreachable, the used map only holds
non-empty lists) empty list is modelled as emitting nothing. -/
def rule2PublicSensitive (missing : List Str) (key : Str) (locations : List Occ) : List Finding :=
  if !(missing.contains key) && pubPref.isPrefixOf key && looksSensitiveName key then
    match locations with
    | ex :: _ => [⟨.publicLooksSensitive, key, ex.file, ex.line⟩]
    | [] => []
  else []

/-- scan.js lines 236-251: non-public name used in a client-marked file;
cites `locations.find(x => x.isClient) || locations[0]`. -/
def rule3ClientSecret (missing : List Str) (key : Str) (locations : List Occ) : List Finding :=
  if !(missing.contains key) && locations.any (fun x => x.isClient) &&
      !(pubPref.isPrefixOf key) then
    match locations.find? (fun x => x.isClient), locations with
    | some ex, _ => [⟨.nonPublicInClient, key, ex.file, ex.line⟩]
    | none, ex :: _ => [⟨.nonPublicInClient, key, ex.file, ex.line⟩]
    | none, [] => []
  else []

/-- scan.js lines 253-268: NEXT_PUBLIC name whose every occurrence is in a
server-route file; cites `locations[0]`. -/
def rule4ServerOnly (missing : List Str) (key : Str) (locations : List Occ) : List Finding :=
  if !(missing.contains key) && pubPref.isPrefixOf key &&
      locations.all (fun x => x.isServerFile) then
    match locations with
    | ex :: _ => [⟨.publicOnlyServer, key, ex.file, ex.line⟩]
    | [] => []
  else []

/-- The four risk rules for one key (scan.js lines 205-269), pushed in
source order. -/
def riskForKey (missing : List Str) (key : Str) (locations : List Occ) : List Finding :=
  rule1Sensitive missing key locations ++ rule2PublicSensitive missing key locations ++
    rule3ClientSecret missing key locations ++ rule4ServerOnly missing key locations

/-- The risk loop over the used map, in map order (scan.js lines 204-269). -/
def computeRisky (used : List (Str × List Occ)) (missing : List Str) : List Finding :=
  used.foldr (fun e acc => riskForKey missing e.1 e.2 ++ acc) []

structure ScanResult where
  used : List (Str × List Occ)
  usedKeys : List Str
  missing : List Str
  unused : List Str
  risky : List Finding
  filesScanned : Nat
deriving DecidableEq

/-- The pipeline of `main` after file enumeration (scan.js lines 144-285):
extraction, env parsing, reconciliation, risk classification, totals. -/
def runScan (files : List (Str × Option Str)) (envText : Option Str) : ScanResult :=
  let used := buildUsed files
  let provided := match envText with | none => [] | some t => parseEnvKeys t
  let usedKeys := usedKeysOf used
  let missing := computeMissing usedKeys provided
  { used := used, usedKeys := usedKeys, missing := missing,
    unused := computeUnused usedKeys provided,
    risky := computeRisky used missing,
    filesScanned := files.length }

/-- JS default `Array.prototype.sort` comparison: lexicographic by code unit. -/
def lexLe : Str → Str → Bool
  | [], _ => true
  | _ :: _, [] => false
  | a :: as, b :: bs => if a = b then lexLe as bs else decide (a.toNat < b.toNat)

def insertSorted (k : Str) : List Str → List Str
  | [] => [k]
  | s :: ss => if lexLe k s then k :: s :: ss else s :: insertSorted k ss

def sortKeys (l : List Str) : List Str := l.foldr insertSorted []

/-- JS `lines.join("\n")`. -/
def joinNl : List Str → Str
  | [] => []
  | [p] => p
  | p :: ps => p ++ nlC :: joinNl ps

/-- The `.env.example.generated` text (scan.js lines 319-320):
sorted used keys, one `KEY=` line each, and a trailing newline. -/
def envExample (usedKeys : List Str) : Str :=
  (joinNl ((sortKeys usedKeys).map (fun k => k ++ [eqC]))) ++ [nlC]

/-- What §4.1 of the spec says one line declares: trim; skip if empty or a
`#` comment; skip if no `=`; otherwise the trimmed substring before the
first `=` is the declared key.  (Stated from the spec's words, to be compared
with `parseLine` from the source.) -/
def specDeclares (raw : Str) : Option Str :=
  let line := trimL raw
  if line = [] then none
  else if [hashC].isPrefixOf line then none
  else if line.contains eqC then some (trimL (line.takeWhile (fun c => c != eqC)))
  else none

/-- Number of start positions at which `needle` occurs in `hay`. -/
def countSub : Str → Str → Nat
  | [], _ => 0
  | c :: rest, needle => (if needle.isPrefixOf (c :: rest) then 1 else 0) + countSub rest needle

/-- The tails of the five entities written by `escapeHtml`. -/
def entTails : List Str := ["amp;".toList, "lt;".toList, "gt;".toList, "quot;".toList, "#039;".toList]

/-- Escaped text: no literal `<`, `>`, `"` or quote character, and every `&`
begins one of the five entities of `escapeHtml`. -/
def okB : Str → Bool
  | [] => true
  | c :: rest =>
    if c = '<' || c = '>' || c = dqC || c = sqC then false
    else if c = '&' then (entTails.any (fun e => e.isPrefixOf rest)) && okB rest
    else okB rest

/-- One metric tile of the report (scan.js lines 355-359 all share this shape). -/
def tileDiv (label value : String) : String :=
  "<div style=\"padding:10px 12px;border:1px solid #ddd;border-radius:10px;\">" ++ label ++
    ": <b>" ++ value ++ "</b></div>"

structure Totals where
  filesScanned : Nat
  envVarsFound : Nat
  missingCount : Nat
  unusedCount : Nat
  riskyCount : Nat
deriving DecidableEq

/-- The metric tiles of the markup report, in source order (scan.js 355-359). -/
def metricTiles (t : Totals) : List String :=
  [tileDiv "Files" (toString t.filesScanned),
   tileDiv "Env vars" (toString t.envVarsFound),
   tileDiv "Missing" (toString t.missingCount),
   tileDiv "Risky" (toString t.riskyCount),
   tileDiv "Unused" (toString t.unusedCount)]

/-- One `<li>` of the missing list (scan.js lines 324-330). -/
def renderMissingItem (k whereStr : String) : String :=
  "<li><b>" ++ escapeHtml k ++ "</b> <span style=\"color:#666\">" ++ escapeHtml whereStr ++
    "</span></li>"

/-- One `<li>` of the risky list (scan.js lines 332-341). -/
def renderRiskyItem (k ty f ln w : String) : String :=
  "<li><b>" ++ escapeHtml k ++ "</b> — " ++ escapeHtml ty ++ " <span style=\"color:#666\">(" ++
    escapeHtml f ++ ":" ++ escapeHtml ln ++ ")</span><div style=\"color:#666;margin-top:4px\">" ++
    escapeHtml w ++ "</div></li>"

/-- One `<li>` of the unused list (scan.js lines 343-345). -/
def renderUnusedItem (k : String) : String := "<li><b>" ++ escapeHtml k ++ "</b></li>"

/-- One findings `<h2>` block; `${items || "<li>None 🎉</li>"}` (scan.js 362-369). -/
def sectionBlock (title items : String) : String :=
  "<h2>" ++ title ++ "</h2>\n<ul>" ++ (if items = "" then "<li>None 🎉</li>" else items) ++ "</ul>"

/-- The three findings sections of the markup report, in source order. -/
def findingsSections (missingItems riskyItems unusedItems : String) : List String :=
  [sectionBlock "Critical: Missing env vars" missingItems,
   sectionBlock "Warnings: Risky usage" riskyItems,
   sectionBlock "Info: Unused env vars" unusedItems]

/-- The `report.html` template (scan.js lines 347-373). -/
def htmlReport (scannedInput : String) (t : Totals)
    (missingItems riskyItems unusedItems : String) : String :=
  "<!doctype html>\n<html><head><meta charset=\"utf-8\" /><meta name=\"viewport\" content=\"width=device-width, initial-scale=1\" />\n<title>Env Audit Report</title></head>\n<body style=\"font-family: system-ui, -apple-system; margin: 24px; max-width: 900px;\">\n<h1 style=\"margin:0 0 6px 0;\">Env Audit Report</h1>\n<div style=\"color:#666;margin-bottom:16px;\">Input: " ++
    escapeHtml scannedInput ++
    "</div>\n\n<div style=\"display:flex; gap:12px; flex-wrap:wrap; margin-bottom:18px;\">\n  " ++
    String.intercalate "\n  " (metricTiles t) ++
    "\n</div>\n\n" ++
    String.intercalate "\n\n" (findingsSections missingItems riskyItems unusedItems) ++
    "\n\n<hr style=\"margin:24px 0;border:none;border-top:1px solid #eee;\" />\n<div style=\"color:#666;font-size:14px;\">Generated by env-auditor</div>\n</body></html>"

/-- `used.get(k)` with default `[]`: the occurrence list recorded for `k`. -/
def lookupOccs : List (Str × List Occ) → Str → List Occ
  | [], _ => []
  | (k0, os) :: rest, k => if k = k0 then os else lookupOccs rest k

/-- Scenario input for the client-directive example (spec §8). -/
def c4File : Str := "app/dashboard/page.tsx".toList

def c4Text : Str := "\"use client\";\nconst s = process.env.STRIPE_SECRET_KEY;\n".toList

/-- Scenario input for the server-route example (spec §8). -/
def c5File : Str := "src/app/api/users/route.ts".toList

def c5Text : Str := "const b = process.env[\"NEXT_PUBLIC_API_BASE\"];\n".toList

/-- Scenario input for the two-access-patterns-on-one-line example (spec §8). -/
def c7File : Str := "lib/x.ts".toList

def c7Text : Str := "const a = process.env.API_KEY || process.env[\"API_KEY\"];\n".toList

/-- A style fragment that occurs in the markup exactly once per metric tile. -/
def tileMarker : Str := "border-radius:10px".toList

/-- A concrete rendered report (scanned input `/tmp/demo`, one file, nothing
found), used to count tiles and sections in the emitted markup. -/
def sampleHtml : String := htmlReport "/tmp/demo" ⟨1, 0, 0, 0, 0⟩ "" "" ""

/- ### Helper lemmas -/

theorem contains_false_iff (l : List Str) (a : Str) : l.contains a = false ↔ a ∉ l := by
  rw [Bool.eq_false_iff]
  exact not_congr List.elem_iff

theorem guard1_false {c b : Bool} (h : (!c && b) = true) : c = false := by
  have h1 : (!c) = true := by
    simp only [Bool.and_eq_true] at h
    exact h.1
  simpa using h1

theorem guard2_false {c p s : Bool} (h : (!c && p && s) = true) : c = false := by
  have h1 : (!c && p) = true := by
    simp only [Bool.and_eq_true] at h
    simp only [Bool.and_eq_true]
    exact h.1
  exact guard1_false h1

theorem mem_rule1 {missing : List Str} {key : Str} {locs : List Occ} {f : Finding}
    (h : f ∈ rule1Sensitive missing key locs) :
    missing.contains key = false ∧ f.kind = .sensitiveExposed ∧ f.key = key := by
  unfold rule1Sensitive at h
  by_cases hg : (!(missing.contains key) && looksSensitiveName key) = true
  · rw [if_pos hg] at h
    rcases hfind : locs.find? (fun x => isLikelyClientExposedPath x.file) with _ | ex <;>
      rw [hfind] at h
    · cases h
    · simp at h
      subst h
      exact ⟨guard1_false hg, rfl, rfl⟩
  · rw [if_neg hg] at h
    cases h

theorem mem_rule2 {missing : List Str} {key : Str} {locs : List Occ} {f : Finding}
    (h : f ∈ rule2PublicSensitive missing key locs) :
    missing.contains key = false ∧ f.kind = .publicLooksSensitive ∧ f.key = key := by
  unfold rule2PublicSensitive at h
  by_cases hg : (!(missing.contains key) && pubPref.isPrefixOf key &&
      looksSensitiveName key) = true
  · rw [if_pos hg] at h
    rcases locs with _ | ⟨ex, tl⟩
    · cases h
    · simp at h
      subst h
      exact ⟨guard2_false hg, rfl, rfl⟩
  · rw [if_neg hg] at h
    cases h

theorem mem_rule3 {missing : List Str} {key : Str} {locs : List Occ} {f : Finding}
    (h : f ∈ rule3ClientSecret missing key locs) :
    missing.contains key = false ∧ f.kind = .nonPublicInClient ∧ f.key = key := by
  unfold rule3ClientSecret at h
  by_cases hg : (!(missing.contains key) && locs.any (fun x => x.isClient) &&
      !(pubPref.isPrefixOf key)) = true
  · rw [if_pos hg] at h
    rcases hfind : locs.find? (fun x => x.isClient) with _ | ex <;> rw [hfind] at h
    · rcases locs with _ | ⟨ex0, tl⟩
      · cases h
      · simp at h
        subst h
        exact ⟨guard2_false hg, rfl, rfl⟩
    · simp at h
      subst h
      exact ⟨guard2_false hg, rfl, rfl⟩
  · rw [if_neg hg] at h
    cases h

theorem mem_rule4 {missing : List Str} {key : Str} {locs : List Occ} {f : Finding}
    (h : f ∈ rule4ServerOnly missing key locs) :
    missing.contains key = false ∧ f.kind = .publicOnlyServer ∧ f.key = key := by
  unfold rule4ServerOnly at h
  by_cases hg : (!(missing.contains key) && pubPref.isPrefixOf key &&
      locs.all (fun x => x.isServerFile)) = true
  · rw [if_pos hg] at h
    rcases locs with _ | ⟨ex, tl⟩
    · cases h
    · simp at h
      subst h
      exact ⟨guard2_false hg, rfl, rfl⟩
  · rw [if_neg hg] at h
    cases h

theorem mem_riskForKey {missing : List Str} {k : Str} {locs : List Occ} {f : Finding}
    (h : f ∈ riskForKey missing k locs) : f.key = k ∧ missing.contains k = false := by
  unfold riskForKey at h
  simp only [List.mem_append] at h
  rcases h with ((h | h) | h) | h
  · exact ⟨(mem_rule1 h).2.2, (mem_rule1 h).1⟩
  · exact ⟨(mem_rule2 h).2.2, (mem_rule2 h).1⟩
  · exact ⟨(mem_rule3 h).2.2, (mem_rule3 h).1⟩
  · exact ⟨(mem_rule4 h).2.2, (mem_rule4 h).1⟩

theorem mem_computeRisky {used : List (Str × List Occ)} {missing : List Str} {f : Finding} :
    f ∈ computeRisky used missing ↔ ∃ e ∈ used, f ∈ riskForKey missing e.1 e.2 := by
  induction used with
  | nil => simp [computeRisky]
  | cons e tl ih =>
    simp only [computeRisky, List.foldr_cons] at ih ⊢
    simp [List.mem_append, ih]

theorem computeRisky_key_not_missing {used : List (Str × List Occ)} {missing : List Str}
    {f : Finding} (h : f ∈ computeRisky used missing) : f.key ∉ missing := by
  rcases mem_computeRisky.mp h with ⟨e, _, hf⟩
  obtain ⟨hk, hm⟩ := mem_riskForKey hf
  rw [hk]
  exact (contains_false_iff _ _).mp hm

/- ### C1 -/

/-- C1: in every run, a variable name in the `missing` list is never the `key`
of an emitted RiskFinding — all four risk rules are guarded by
`!missingSet.has(key)` (scan.js lines 207, 221-225, 238-242, 255-258). -/
theorem c1_suppression_invariant (files : List (Str × Option Str)) (envText : Option Str)
    (f : Finding) (hf : f ∈ (runScan files envText).risky) :
    f.key ∉ (runScan files envText).missing :=
  computeRisky_key_not_missing hf

theorem c1_suppression_invariant_witness :
    ((⟨RiskKind.sensitiveExposed, "API_KEY".toList, "app/p.tsx".toList, 1⟩ : Finding) ∈
      (runScan [("app/p.tsx".toList, some "process.env.API_KEY".toList)] none).risky) ∧
    (⟨RiskKind.sensitiveExposed, "API_KEY".toList, "app/p.tsx".toList, 1⟩ : Finding).key ∉
      (runScan [("app/p.tsx".toList, some "process.env.API_KEY".toList)] none).missing :=
  ⟨by decide, c1_suppression_invariant _ _ _ (by decide)⟩

/- ### C2 -/

/-- C2: with a non-empty declared set, `missing = U − D` and `unused = D − U`
(as sets); with an empty declared set both outputs are empty
(scan.js lines 192-199). -/
theorem c2_reconciliation (usedKeys provided : List Str) :
    (provided ≠ [] →
      (∀ k, k ∈ computeMissing usedKeys provided ↔ (k ∈ usedKeys ∧ k ∉ provided)) ∧
      (∀ k, k ∈ computeUnused usedKeys provided ↔ (k ∈ provided ∧ k ∉ usedKeys))) ∧
    (provided = [] →
      computeMissing usedKeys provided = [] ∧ computeUnused usedKeys provided = []) := by
  constructor
  · intro hne
    have hE : provided.isEmpty = false := by
      cases provided
      · exact absurd rfl hne
      · rfl
    constructor <;> intro k <;>
      simp [computeMissing, computeUnused, hE, List.mem_filter, contains_false_iff]
  · intro h
    subst h
    simp [computeMissing, computeUnused]

theorem c2_reconciliation_witness :
    (["B".toList] ≠ ([] : List Str)) ∧
    ("A".toList ∈ computeMissing ["A".toList] ["B".toList] ↔
      ("A".toList ∈ ["A".toList] ∧ "A".toList ∉ ["B".toList])) :=
  ⟨by decide, ((c2_reconciliation ["A".toList] ["B".toList]).1 (by decide)).1 _⟩

/- ### Env-list parser characterization (C6, and support for C3) -/

theorem takeWhile_length_eq_iff {p : Char → Bool} {l : Str} :
    ((l.takeWhile p).length = l.length) ↔ ∀ c ∈ l, p c = true := by
  induction l with
  | nil => simp
  | cons c rest ih =>
    by_cases hp : p c = true
    · simp [List.takeWhile_cons, hp, ih]
    · simp only [List.takeWhile_cons, hp]
      simp only [Bool.false_eq_true, if_false, List.length_nil, List.length_cons, List.mem_cons]
      constructor
      · intro habs
        omega
      · intro habs
        exact absurd (habs c (Or.inl rfl)) hp

theorem mem_addSet {s : List Str} {k a : Str} : a ∈ addSet s k ↔ a ∈ s ∨ a = k := by
  unfold addSet
  by_cases hc : s.contains k = true
  · rw [if_pos hc]
    have hk : k ∈ s := List.elem_iff.mp hc
    constructor
    · exact fun h => Or.inl h
    · rintro (h | rfl)
      · exact h
      · exact hk
  · rw [if_neg hc]
    simp [List.mem_append]

theorem mem_parseLine_iff {acc : List Str} {raw k : Str} :
    k ∈ parseLine acc raw ↔ k ∈ acc ∨ (specDeclares raw = some k ∧ k ≠ []) := by
  unfold parseLine specDeclares
  by_cases h1 : trimL raw = []
  · simp [h1]
  · rw [if_neg h1, if_neg h1]
    by_cases h2 : [hashC].isPrefixOf (trimL raw) = true
    · simp [h2]
    · rw [if_neg h2, if_neg h2]
      by_cases h3 : (trimL raw).contains eqC = true
      · have hmem : eqC ∈ trimL raw := List.elem_iff.mp h3
        have hlen : ¬ ((trimL raw).takeWhile (fun c => c != eqC)).length = (trimL raw).length := by
          intro heq
          have := takeWhile_length_eq_iff.mp heq eqC hmem
          simp at this
        rw [if_neg hlen, if_pos h3]
        by_cases h4 : trimL ((trimL raw).takeWhile (fun c => c != eqC)) = []
        · rw [if_pos h4]
          constructor
          · exact fun h => Or.inl h
          · rintro (h | ⟨hsome, hne⟩)
            · exact h
            · rw [h4] at hsome
              injection hsome with hk
              exact absurd hk.symm hne
        · rw [if_neg h4, mem_addSet]
          constructor
          · rintro (h | rfl)
            · exact Or.inl h
            · exact Or.inr ⟨rfl, h4⟩
          · rintro (h | ⟨hsome, _⟩)
            · exact Or.inl h
            · injection hsome with hk
              exact Or.inr hk.symm
      · have hall : ∀ c ∈ trimL raw, (c != eqC) = true := by
          intro c hcmem
          have : ¬ c = eqC := by
            intro hceq
            subst hceq
            exact h3 (List.elem_iff.mpr hcmem)
          simpa using this
        have hlen : ((trimL raw).takeWhile (fun c => c != eqC)).length = (trimL raw).length :=
          takeWhile_length_eq_iff.mpr hall
        rw [if_pos hlen, if_neg h3]
        simp

theorem mem_foldl_parseLine {lines acc : List Str} {k : Str} :
    k ∈ List.foldl parseLine acc lines ↔
      k ∈ acc ∨ ∃ raw ∈ lines, specDeclares raw = some k ∧ k ≠ [] := by
  induction lines generalizing acc with
  | nil => simp
  | cons raw rest ih =>
    rw [List.foldl_cons, ih]
    simp only [mem_parseLine_iff, List.mem_cons]
    constructor
    · rintro ((hk | hd) | ⟨r, hr, hd⟩)
      · exact Or.inl hk
      · exact Or.inr ⟨raw, Or.inl rfl, hd⟩
      · exact Or.inr ⟨r, Or.inr hr, hd⟩
    · rintro (hk | ⟨r, (rfl | hr), hd⟩)
      · exact Or.inl (Or.inl hk)
      · exact Or.inl (Or.inr hd)
      · exact Or.inr ⟨r, hr, hd⟩

/- ### C6 -/

/-- C6 counterexample: on the input `=v` the spec's per-line procedure
declares the (empty) trimmed substring before the first `=`, but
`parseEnvKeys` silently skips a line whose key trims to empty
(`if (key) keys.add(key)`, scan.js line 24). -/
theorem c6_env_parser_counterexample :
    ¬ (([] : Str) ∈ parseEnvKeys ("=v".toList) ↔
        some ([] : Str) ∈ (splitNl ("=v".toList)).map specDeclares) := by
  decide

theorem parseEnvKeys_mem (envText : Str) (k : Str) :
    k ∈ parseEnvKeys envText ↔
      (some k ∈ (splitNl envText).map specDeclares ∧ k ≠ []) := by
  unfold parseEnvKeys
  rw [mem_foldl_parseLine]
  simp only [List.not_mem_nil, false_or, List.mem_map]
  constructor
  · rintro ⟨raw, hr, hd, hne⟩
    exact ⟨⟨raw, hr, hd⟩, hne⟩
  · rintro ⟨⟨raw, hr, hd⟩, hne⟩
    exact ⟨raw, hr, hd, hne⟩

/-- C6 amended: the env-list parser returns exactly the keys obtained by the
spec's per-line procedure (trim; skip empty and `#` lines; skip lines without
`=`; take the trimmed substring before the first `=`), except that a line
whose trimmed key is empty is also silently skipped.  Malformed lines never
produce an error (the function is total). -/
theorem c6_env_parser_amended (envText : Str) (k : Str) :
    k ∈ parseEnvKeys envText ↔
      (some k ∈ (splitNl envText).map specDeclares ∧ k ≠ []) :=
  parseEnvKeys_mem envText k

/- ### C3: round-trip of the generated declarations-template -/

theorem splitNl_ne_nil (l : Str) : splitNl l ≠ [] := by
  cases l with
  | nil => simp [splitNl]
  | cons c rest => by_cases hc : c = nlC <;> simp [splitNl, hc]

theorem splitNl_cons_nl (rest : Str) : splitNl (nlC :: rest) = [] :: splitNl rest := by
  simp [splitNl]

theorem splitNl_cons_other {c : Char} (hc : c ≠ nlC) (rest : Str) :
    splitNl (c :: rest) = (c :: (splitNl rest).headD []) :: (splitNl rest).tail := by
  simp [splitNl, hc]

theorem splitNl_append_nl {p : Str} (hp : nlC ∉ p) (rest : Str) :
    splitNl (p ++ nlC :: rest) = p :: splitNl rest := by
  induction p with
  | nil => simpa using splitNl_cons_nl rest
  | cons c p ih =>
    have hc : c ≠ nlC := fun h => hp (h ▸ List.mem_cons_self c p)
    have hp' : nlC ∉ p := fun h => hp (List.mem_cons_of_mem c h)
    rw [List.cons_append, splitNl_cons_other hc, ih hp']
    simp

theorem splitNl_joinNl {parts : List Str} (hne : parts ≠ [])
    (hnl : ∀ p ∈ parts, nlC ∉ p) :
    splitNl (joinNl parts ++ [nlC]) = parts ++ [[]] := by
  induction parts with
  | nil => exact absurd rfl hne
  | cons p ps ih =>
    rcases ps with _ | ⟨p2, ps'⟩
    · have hp : nlC ∉ p := hnl p (List.mem_cons_self p [])
      show splitNl (p ++ [nlC]) = [p, []]
      have := splitNl_append_nl hp []
      simpa [splitNl] using this
    · have hp : nlC ∉ p := hnl p (List.mem_cons_self p _)
      have hrest : ∀ q ∈ p2 :: ps', nlC ∉ q := fun q hq => hnl q (List.mem_cons_of_mem p hq)
      have hjoin : joinNl (p :: p2 :: ps') = p ++ nlC :: joinNl (p2 :: ps') := rfl
      rw [hjoin, List.append_assoc, List.cons_append]
      rw [splitNl_append_nl hp, ih (by simp) hrest]
      simp

theorem dropWhile_eq_self_of {p : Char → Bool} {l : Str}
    (h : ∀ c ∈ l, p c = false) : l.dropWhile p = l := by
  cases l with
  | nil => rfl
  | cons c rest => simp [List.dropWhile_cons, h c (List.mem_cons_self c rest)]

theorem trimL_eq_self {l : Str} (h : ∀ c ∈ l, c.isWhitespace = false) : trimL l = l := by
  unfold trimL
  rw [dropWhile_eq_self_of h]
  rw [dropWhile_eq_self_of (fun c hc => h c (List.mem_reverse.mp hc))]
  exact List.reverse_reverse l

theorem ws_toNat {c : Char} (h : c.isWhitespace = true) :
    c.toNat = 32 ∨ c.toNat = 9 ∨ c.toNat = 13 ∨ c.toNat = 10 := by
  simp [Char.isWhitespace] at h
  rcases h with ((rfl | rfl) | rfl) | rfl <;> decide

theorem envChar_props {c : Char} (h : isEnvChar c = true) :
    c.isWhitespace = false ∧ c ≠ eqC ∧ c ≠ hashC ∧ c ≠ nlC := by
  have hn : ((65 ≤ c.toNat ∧ c.toNat ≤ 90) ∨ (48 ≤ c.toNat ∧ c.toNat ≤ 57)) ∨ c = '_' := by
    simpa [isEnvChar, Bool.or_eq_true, Bool.and_eq_true, decide_eq_true_eq] using h
  rcases hn with (⟨h1, h2⟩ | ⟨h1, h2⟩) | rfl
  case inr => exact ⟨by decide, by decide, by decide, by decide⟩
  all_goals
    refine ⟨?_, ?_, ?_, ?_⟩
    · cases hw : c.isWhitespace
      · rfl
      · rcases ws_toNat hw with hv | hv | hv | hv <;> omega
    · intro hc
      rw [hc] at h1 h2
      revert h1 h2
      decide
    · intro hc
      rw [hc] at h1 h2
      revert h1 h2
      decide
    · intro hc
      rw [hc] at h1 h2
      revert h1 h2
      decide

theorem takeWhile_keyline {k : Str} (henv : ∀ c ∈ k, isEnvChar c = true) :
    (k ++ [eqC]).takeWhile (fun c => c != eqC) = k := by
  induction k with
  | nil => simp [List.takeWhile_cons]
  | cons c rest ih =>
    have hc : c ≠ eqC := (envChar_props (henv c (List.mem_cons_self c rest))).2.1
    have hrest : ∀ c ∈ rest, isEnvChar c = true := fun c hcm =>
      henv c (List.mem_cons_of_mem _ hcm)
    simp [List.takeWhile_cons, hc, ih hrest]

theorem trimL_keyline {k : Str} (henv : ∀ c ∈ k, isEnvChar c = true) :
    trimL (k ++ [eqC]) = k ++ [eqC] := by
  apply trimL_eq_self
  intro c hc
  rcases List.mem_append.mp hc with hm | hm
  · exact (envChar_props (henv c hm)).1
  · simp only [List.mem_singleton] at hm
    subst hm
    decide

theorem specDeclares_keyline {k : Str} (hne : k ≠ [])
    (henv : ∀ c ∈ k, isEnvChar c = true) : specDeclares (k ++ [eqC]) = some k := by
  unfold specDeclares
  rw [trimL_keyline henv]
  have hnil : ¬ (k ++ [eqC] = []) := by simp
  rw [if_neg hnil]
  have hhash : ¬ ([hashC].isPrefixOf (k ++ [eqC]) = true) := by
    rcases k with _ | ⟨c0, k'⟩
    · exact absurd rfl hne
    · have hc0 : c0 ≠ hashC := (envChar_props (henv c0 (List.mem_cons_self c0 k'))).2.2.1
      simp [List.isPrefixOf]
      intro habs
      exact absurd habs.symm hc0
  rw [if_neg hhash]
  have hcont : (k ++ [eqC]).contains eqC = true :=
    List.elem_iff.mpr (List.mem_append.mpr (Or.inr (List.mem_singleton.mpr rfl)))
  rw [if_pos hcont, takeWhile_keyline henv]
  rw [trimL_eq_self (fun c hc => (envChar_props (henv c hc)).1)]

theorem mem_insertSorted {a k : Str} {s : List Str} :
    a ∈ insertSorted k s ↔ a = k ∨ a ∈ s := by
  induction s with
  | nil => simp [insertSorted]
  | cons b t ih =>
    unfold insertSorted
    by_cases h : lexLe k b = true
    · rw [if_pos h]
      simp [List.mem_cons]
    · rw [if_neg h]
      simp only [List.mem_cons, ih]
      tauto

theorem mem_sortKeys {a : Str} {l : List Str} : a ∈ sortKeys l ↔ a ∈ l := by
  induction l with
  | nil => simp [sortKeys]
  | cons b t ih =>
    have : sortKeys (b :: t) = insertSorted b (sortKeys t) := rfl
    rw [this, mem_insertSorted, ih, List.mem_cons]

/-- C3: every key of the generated declarations-template, fed back through the
env-list parser and reconciled against the same used key set, yields an empty
`missing` list (scan.js lines 319-320, 16-27, 192-199).  The hypothesis says
the keys are what the extraction regexes can capture: non-empty `[A-Z0-9_]+`
tokens. -/
theorem c3_roundtrip (usedKeys : List Str)
    (hvalid : ∀ k ∈ usedKeys, k ≠ [] ∧ ∀ c ∈ k, isEnvChar c = true) :
    computeMissing usedKeys (parseEnvKeys (envExample usedKeys)) = [] := by
  have hmemparse : ∀ k ∈ usedKeys, k ∈ parseEnvKeys (envExample usedKeys) := by
    intro k hk
    rw [parseEnvKeys_mem]
    refine ⟨?_, (hvalid k hk).1⟩
    unfold envExample
    have hne : (sortKeys usedKeys).map (fun k => k ++ [eqC]) ≠ [] := by
      have : k ∈ sortKeys usedKeys := mem_sortKeys.mpr hk
      rcases hs : sortKeys usedKeys with _ | _
      · rw [hs] at this
        cases this
      · simp
    have hnl : ∀ p ∈ (sortKeys usedKeys).map (fun k => k ++ [eqC]), nlC ∉ p := by
      intro p hp
      rcases List.mem_map.mp hp with ⟨k0, hk0, rfl⟩
      have hk0u : k0 ∈ usedKeys := mem_sortKeys.mp hk0
      intro hmem
      rcases List.mem_append.mp hmem with hm | hm
      · exact absurd rfl (envChar_props ((hvalid k0 hk0u).2 nlC hm)).2.2.2.symm
      · simp only [List.mem_singleton] at hm
        revert hm
        decide
    rw [splitNl_joinNl hne hnl]
    rw [List.map_append, List.mem_append]
    refine Or.inl ?_
    rw [List.map_map, List.mem_map]
    refine ⟨k, mem_sortKeys.mpr hk, ?_⟩
    exact specDeclares_keyline (hvalid k hk).1 (hvalid k hk).2
  unfold computeMissing
  by_cases hE : (parseEnvKeys (envExample usedKeys)).isEmpty = true
  · rw [if_pos hE]
  · rw [if_neg hE]
    rw [List.filter_eq_nil_iff]
    intro k hk
    have hc : (parseEnvKeys (envExample usedKeys)).contains k = true :=
      List.elem_iff.mpr (hmemparse k hk)
    rw [hc]
    decide

theorem c3_roundtrip_witness :
    (∀ k ∈ [ "API_KEY".toList, "DB_URL".toList ], k ≠ [] ∧ ∀ c ∈ k, isEnvChar c = true) ∧
    computeMissing ["API_KEY".toList, "DB_URL".toList]
      (parseEnvKeys (envExample ["API_KEY".toList, "DB_URL".toList])) = [] :=
  ⟨by decide, c3_roundtrip _ (by decide)⟩

/- ### C4 -/

/-- C4: for the single file `app/dashboard/page.tsx` containing the client
directive and one `process.env.STRIPE_SECRET_KEY` reference, with no env list:
exactly one occurrence is recorded (with `isClient = true`), `missing` and
`unused` are empty, and the findings include both the
sensitive-name-in-exposed-path and the non-public-secret-in-client-file kinds. -/
theorem c4_client_directive_scenario :
    (runScan [(c4File, some c4Text)] none).used =
      [("STRIPE_SECRET_KEY".toList, [⟨c4File, 2, true, false⟩])] ∧
    (runScan [(c4File, some c4Text)] none).missing = [] ∧
    (runScan [(c4File, some c4Text)] none).unused = [] ∧
    (⟨RiskKind.sensitiveExposed, "STRIPE_SECRET_KEY".toList, c4File, 2⟩ : Finding) ∈
      (runScan [(c4File, some c4Text)] none).risky ∧
    (⟨RiskKind.nonPublicInClient, "STRIPE_SECRET_KEY".toList, c4File, 2⟩ : Finding) ∈
      (runScan [(c4File, some c4Text)] none).risky := by
  decide

/- ### C10 -/

/-- C10: a file whose read fails (`none` content) contributes no occurrences,
yet `filesScanned` counts every enumerated file (scan.js lines 150-154 swallow
the read error with `continue`, line 274 reports `files.length`). -/
theorem c10_files_scanned_counts_unreadable (pre post : List (Str × Option Str)) (rf : Str)
    (envText : Option Str) :
    (runScan (pre ++ (rf, none) :: post) envText).filesScanned =
      pre.length + 1 + post.length ∧
    (runScan (pre ++ (rf, none) :: post) envText).used = (runScan (pre ++ post) envText).used ∧
    (∀ files envT, (runScan files envT).filesScanned = files.length) := by
  refine ⟨?_, ?_, fun files envT => rfl⟩
  · show (pre ++ (rf, none) :: post).length = pre.length + 1 + post.length
    simp [List.length_append]
    omega
  · show buildUsed (pre ++ (rf, none) :: post) = buildUsed (pre ++ post)
    unfold buildUsed
    rw [List.foldl_append, List.foldl_append, List.foldl_cons]

/- ### C5 -/

theorem nodup_keys_val_eq {l : List (Str × List Occ)} (hnd : (l.map Prod.fst).Nodup)
    {k : Str} {v w : List Occ} (hv : (k, v) ∈ l) (hw : (k, w) ∈ l) : v = w := by
  induction l with
  | nil => cases hv
  | cons e tl ih =>
    rw [List.map_cons, List.nodup_cons] at hnd
    rcases List.mem_cons.mp hv with hv1 | hv1 <;> rcases List.mem_cons.mp hw with hw1 | hw1
    · have hvw : (k, v) = (k, w) := hv1.trans hw1.symm
      exact ((Prod.mk.injEq _ _ _ _).mp hvw).2
    · exfalso
      apply hnd.1
      have hk : k ∈ tl.map Prod.fst := List.mem_map_of_mem Prod.fst hw1
      have he1 : e.1 = k := (congrArg Prod.fst hv1).symm
      rw [he1]
      exact hk
    · exfalso
      apply hnd.1
      have hk : k ∈ tl.map Prod.fst := List.mem_map_of_mem Prod.fst hv1
      have he1 : e.1 = k := (congrArg Prod.fst hw1).symm
      rw [he1]
      exact hk
    · exact ih hnd.2 hv1 hw1

theorem rule4_shape {missing : List Str} {key : Str} {locs : List Occ} {f : Finding}
    (h : f ∈ rule4ServerOnly missing key locs) :
    (!(missing.contains key) && pubPref.isPrefixOf key &&
        locs.all (fun x => x.isServerFile)) = true ∧
      ∃ ex tl, locs = ex :: tl ∧
        f = ⟨RiskKind.publicOnlyServer, key, ex.file, ex.line⟩ := by
  unfold rule4ServerOnly at h
  by_cases hg : (!(missing.contains key) && pubPref.isPrefixOf key &&
      locs.all (fun x => x.isServerFile)) = true
  · rw [if_pos hg] at h
    rcases locs with _ | ⟨ex, tl⟩
    · cases h
    · simp at h
      exact ⟨hg, ex, tl, rfl, h⟩
  · rw [if_neg hg] at h
    cases h

theorem rule4_fires {missing : List Str} {key : Str} {ex : Occ} {tl : List Occ}
    (hm : missing.contains key = false) (hp : pubPref.isPrefixOf key = true)
    (hall : (ex :: tl).all (fun x => x.isServerFile) = true) :
    (⟨RiskKind.publicOnlyServer, key, ex.file, ex.line⟩ : Finding) ∈
      rule4ServerOnly missing key (ex :: tl) := by
  unfold rule4ServerOnly
  rw [if_pos (by rw [hm, hp, hall]; rfl)]
  simp

theorem rule4_of_computeRisky {used : List (Str × List Occ)} {missing : List Str}
    {f : Finding} {key : Str} {locs : List Occ}
    (hnd : (used.map Prod.fst).Nodup) (hmem : (key, locs) ∈ used)
    (hf : f ∈ computeRisky used missing) (hkind : f.kind = RiskKind.publicOnlyServer)
    (hkey : f.key = key) : f ∈ rule4ServerOnly missing key locs := by
  rcases mem_computeRisky.mp hf with ⟨e, he, hfr⟩
  unfold riskForKey at hfr
  simp only [List.mem_append] at hfr
  rcases hfr with ((h1 | h2) | h3) | h4
  · rcases mem_rule1 h1 with ⟨_, hk1, _⟩
    rw [hkind] at hk1
    cases hk1
  · rcases mem_rule2 h2 with ⟨_, hk2, _⟩
    rw [hkind] at hk2
    cases hk2
  · rcases mem_rule3 h3 with ⟨_, hk3, _⟩
    rw [hkind] at hk3
    cases hk3
  · have hke : f.key = e.1 := (mem_rule4 h4).2.2
    have he1 : e.1 = key := by rw [← hke, hkey]
    have heta : e = (key, e.2) := by
      rw [← he1]
    have hmem' : (key, e.2) ∈ used := heta ▸ he
    have he2 : e.2 = locs := nodup_keys_val_eq hnd hmem' hmem
    rw [he1, he2] at h4
    exact h4

/-- C5: for a key of the used map that is not missing, the
public-name-only-in-server-routes finding is emitted iff the key has the
`NEXT_PUBLIC_` prefix and every recorded occurrence is a server-route file;
when emitted it cites the file and line of the first recorded occurrence.
In particular, `process.env["NEXT_PUBLIC_API_BASE"]` referenced only in
`src/app/api/users/route.ts` yields exactly this finding (scan.js 253-268). -/
theorem c5_public_only_in_server_routes
    (used : List (Str × List Occ)) (missing : List Str) (key : Str) (locs : List Occ)
    (hnd : (used.map Prod.fst).Nodup) (hmem : (key, locs) ∈ used)
    (hne : locs ≠ []) (hnm : key ∉ missing) :
    ((∃ f ∈ computeRisky used missing,
        f.kind = RiskKind.publicOnlyServer ∧ f.key = key) ↔
      (pubPref.isPrefixOf key = true ∧ ∀ o ∈ locs, o.isServerFile = true)) ∧
    (∀ f ∈ computeRisky used missing, f.kind = RiskKind.publicOnlyServer → f.key = key →
      ∃ ex, locs.head? = some ex ∧
        f = ⟨RiskKind.publicOnlyServer, key, ex.file, ex.line⟩) ∧
    (runScan [(c5File, some c5Text)] none).risky =
      [⟨RiskKind.publicOnlyServer, "NEXT_PUBLIC_API_BASE".toList, c5File, 1⟩] := by
  have hm : missing.contains key = false := (contains_false_iff _ _).mpr hnm
  refine ⟨⟨?_, ?_⟩, ?_, by decide⟩
  · rintro ⟨f, hf, hkind, hkey⟩
    have h4 := rule4_of_computeRisky hnd hmem hf hkind hkey
    rcases rule4_shape h4 with ⟨hg, _, _, _, _⟩
    simp only [Bool.and_eq_true] at hg
    exact ⟨hg.1.2, fun o ho => List.all_eq_true.mp hg.2 o ho⟩
  · rintro ⟨hp, hall⟩
    rcases hl : locs with _ | ⟨ex, tl⟩
    · exact absurd hl hne
    · subst hl
      have hallb : (ex :: tl).all (fun x => x.isServerFile) = true :=
        List.all_eq_true.mpr hall
      refine ⟨⟨RiskKind.publicOnlyServer, key, ex.file, ex.line⟩, ?_, rfl, rfl⟩
      apply mem_computeRisky.mpr
      refine ⟨(key, ex :: tl), hmem, ?_⟩
      unfold riskForKey
      simp only [List.mem_append]
      exact Or.inr (rule4_fires hm hp hallb)
  · intro f hf hkind hkey
    have h4 := rule4_of_computeRisky hnd hmem hf hkind hkey
    rcases rule4_shape h4 with ⟨_, ex, tl, hlocs, hfeq⟩
    refine ⟨ex, ?_, hfeq⟩
    rw [hlocs]
    rfl

theorem c5_public_only_in_server_routes_witness :
    (((runScan [(c5File, some c5Text)] none).used.map Prod.fst).Nodup ∧
      ("NEXT_PUBLIC_API_BASE".toList, [⟨c5File, 1, false, true⟩]) ∈
        (runScan [(c5File, some c5Text)] none).used ∧
      ([⟨c5File, 1, false, true⟩] : List Occ) ≠ [] ∧
      "NEXT_PUBLIC_API_BASE".toList ∉ (runScan [(c5File, some c5Text)] none).missing) ∧
    (pubPref.isPrefixOf "NEXT_PUBLIC_API_BASE".toList = true ∧
      ∀ o ∈ ([⟨c5File, 1, false, true⟩] : List Occ), o.isServerFile = true) := by
  refine ⟨⟨by decide, by decide, by decide, by decide⟩, ?_⟩
  exact ((c5_public_only_in_server_routes
      (runScan [(c5File, some c5Text)] none).used
      (runScan [(c5File, some c5Text)] none).missing
      "NEXT_PUBLIC_API_BASE".toList [⟨c5File, 1, false, true⟩]
      (by decide) (by decide) (by decide) (by decide)).1).mp
    ⟨⟨RiskKind.publicOnlyServer, "NEXT_PUBLIC_API_BASE".toList, c5File, 1⟩,
      by decide, rfl, rfl⟩

/- ### C7 -/

theorem scanWithFuel_succ_some {try? : Str → Option (Str × Nat)} {c : Char} {rest : Str}
    {k : Str} {len fuel pos : Nat} (h : try? (c :: rest) = some (k, len)) :
    scanWithFuel try? (fuel + 1) pos (c :: rest) =
      (pos, k) :: scanWithFuel try? fuel (pos + len) (rest.drop (len - 1)) := by
  simp [scanWithFuel, h]

theorem scanWithFuel_succ_none {try? : Str → Option (Str × Nat)} {c : Char} {rest : Str}
    {fuel pos : Nat} (h : try? (c :: rest) = none) :
    scanWithFuel try? (fuel + 1) pos (c :: rest) = scanWithFuel try? fuel (pos + 1) rest := by
  simp [scanWithFuel, h]

theorem scanWithFuel_bound_chain (try? : Str → Option (Str × Nat))
    (htry : ∀ l k len, try? l = some (k, len) → 1 ≤ len) (fuel : Nat) :
    ∀ pos l, (∀ e ∈ scanWithFuel try? fuel pos l, pos ≤ e.1) ∧
      List.Chain' (fun a b : Nat × Str => a.1 < b.1) (scanWithFuel try? fuel pos l) := by
  induction fuel with
  | zero =>
    intro pos l
    constructor <;> simp [scanWithFuel]
  | succ fuel ih =>
    intro pos l
    cases l with
    | nil => constructor <;> simp [scanWithFuel]
    | cons c rest =>
      rcases h : try? (c :: rest) with _ | ⟨k, len⟩
      · rw [scanWithFuel_succ_none h]
        rcases ih (pos + 1) rest with ⟨hb, hc⟩
        exact ⟨fun e he => Nat.le_of_succ_le (hb e he), hc⟩
      · rw [scanWithFuel_succ_some h]
        rcases ih (pos + len) (rest.drop (len - 1)) with ⟨hb, hc⟩
        have hlen := htry _ _ _ h
        constructor
        · intro e he
          rcases List.mem_cons.mp he with rfl | he'
          · exact Nat.le_refl pos
          · exact Nat.le_trans (Nat.le_add_right pos len) (hb e he')
        · rw [List.chain'_cons']
          refine ⟨?_, hc⟩
          intro b hbmem
          have hbl : b ∈ scanWithFuel try? fuel (pos + len) (rest.drop (len - 1)) :=
            List.mem_of_mem_head? hbmem
          have hble := hb b hbl
          show pos < b.1
          omega

theorem tryDot_len {l k : Str} {len : Nat} (h : tryDot l = some (k, len)) : 1 ≤ len := by
  unfold tryDot at h
  by_cases hp : peDot.isPrefixOf l = true
  · by_cases hk : (l.drop 12).takeWhile isEnvChar = []
    · simp [hp, hk] at h
    · simp [hp, hk] at h
      omega
  · simp [hp] at h

theorem tryBracket_len {l k : Str} {len : Nat} (h : tryBracket l = some (k, len)) : 1 ≤ len := by
  unfold tryBracket at h
  by_cases hp : peBr.isPrefixOf l = true
  case neg => simp [hp] at h
  case pos =>
    rcases hd : l.drop 12 with _ | ⟨q1, rest⟩
    · simp [hp, hd] at h
    · by_cases hq : isQuote q1 = true
      case neg => simp [hp, hd, hq] at h
      case pos =>
        by_cases hk : rest.takeWhile isEnvChar = []
        · simp [hp, hd, hq, hk] at h
        · rcases hr : rest.drop (rest.takeWhile isEnvChar).length with _ | ⟨q2, rest2⟩
          · simp [hp, hd, hq, hk, hr] at h
          · rcases rest2 with _ | ⟨close, rest3⟩
            · simp [hp, hd, hq, hk, hr] at h
            · by_cases hq2 : (isQuote q2 && close = ']') = true
              · simp [hp, hd, hq, hk, hr, hq2] at h
                omega
              · simp [hp, hd, hq, hk, hr, hq2] at h

theorem lookupOccs_pushOcc (m : List (Str × List Occ)) (k0 k : Str) (o : Occ) :
    lookupOccs (pushOcc m k0 o) k =
      if k = k0 then lookupOccs m k ++ [o] else lookupOccs m k := by
  induction m with
  | nil => by_cases h : k = k0 <;> simp [pushOcc, lookupOccs, h]
  | cons e tl ih =>
    rcases e with ⟨k1, os⟩
    unfold pushOcc
    by_cases h0 : k0 = k1
    · rw [if_pos h0]
      by_cases h : k = k1
      · subst h
        simp [lookupOccs, h0.symm]
      · have hk0 : ¬ k = k0 := fun hh => h (hh.trans h0)
        simp [lookupOccs, h, hk0]
    · rw [if_neg h0]
      by_cases h : k = k1
      · subst h
        have hk0 : ¬ k = k0 := fun hh => h0 (hh.symm)
        simp [lookupOccs, hk0]
      · simp [lookupOccs, h, ih]

theorem lookupOccs_foldl_push (stream : List (Str × Occ)) :
    ∀ (m : List (Str × List Occ)) (k : Str),
      lookupOccs (stream.foldl (fun acc ko => pushOcc acc ko.1 ko.2) m) k =
        lookupOccs m k ++ (stream.filter (fun ko => ko.1 == k)).map Prod.snd := by
  induction stream with
  | nil =>
    intro m k
    simp
  | cons ko rest ih =>
    intro m k
    rw [List.foldl_cons, ih, lookupOccs_pushOcc]
    by_cases h : k = ko.1
    · rw [if_pos h, List.filter_cons]
      have hb : (ko.1 == k) = true := beq_iff_eq.mpr h.symm
      rw [if_pos hb]
      simp
    · rw [if_neg h, List.filter_cons]
      have hb : ¬ ((ko.1 == k) = true) := fun hbt => h (beq_iff_eq.mp hbt).symm
      rw [if_neg hb]

theorem fileOccs_eq (relFile text : Str) :
    fileOccs relFile text =
      ((scanDot text).map (fun m =>
        (m.2, Occ.mk relFile (getLineNumber text m.1) (fileIsClient text)
          (fileIsServerRoute relFile)))) ++
      ((scanBracket text).map (fun m =>
        (m.2, Occ.mk relFile (getLineNumber text m.1) (fileIsClient text)
          (fileIsServerRoute relFile)))) := by
  unfold fileOccs
  rw [List.map_append]

theorem getLineNumber_mono (text : Str) (i j : Nat) :
    getLineNumber text i ≤ getLineNumber text (i + j) := by
  unfold getLineNumber
  have hpre : List.Sublist (text.take i) (text.take (i + j)) := by
    have h1 : List.take i (List.take (i + j) text) = List.take i text := by
      rw [List.take_take]
      congr 1
      omega
    rw [← h1]
    exact List.take_sublist i (text.take (i + j))
  exact Nat.add_le_add_right (hpre.count_le nlC) 1

/-- C7: per file, the occurrence stream is all dot-access matches followed by
all bracket-access matches; each scanner's match indices are strictly
increasing (so line numbers, monotone in the index, are top-to-bottom); the
list recorded for a key is the previous list plus that file's matches for the
key in stream order (one entry per match — no merging); and the concrete
both-patterns-on-one-line file yields two distinct entries for `API_KEY`. -/
theorem c7_occurrence_order :
    (∀ relFile text : Str,
      fileOccs relFile text =
        ((scanDot text).map (fun m =>
          (m.2, Occ.mk relFile (getLineNumber text m.1) (fileIsClient text)
            (fileIsServerRoute relFile)))) ++
        ((scanBracket text).map (fun m =>
          (m.2, Occ.mk relFile (getLineNumber text m.1) (fileIsClient text)
            (fileIsServerRoute relFile))))) ∧
    (∀ text : Str,
      List.Chain' (fun a b : Nat × Str => a.1 < b.1) (scanDot text) ∧
      List.Chain' (fun a b : Nat × Str => a.1 < b.1) (scanBracket text)) ∧
    (∀ (text : Str) (i j : Nat), getLineNumber text i ≤ getLineNumber text (i + j)) ∧
    (∀ (m : List (Str × List Occ)) (relFile text k : Str),
      lookupOccs (addFileToUsed m relFile text) k =
        lookupOccs m k ++
          ((fileOccs relFile text).filter (fun ko => ko.1 == k)).map Prod.snd) ∧
    buildUsed [(c7File, some c7Text)] =
      [("API_KEY".toList,
        [⟨c7File, 1, false, false⟩, ⟨c7File, 1, false, false⟩])] := by
  refine ⟨fileOccs_eq, ?_, getLineNumber_mono, ?_, by decide⟩
  · intro text
    exact ⟨(scanWithFuel_bound_chain tryDot (fun _ _ _ h => tryDot_len h)
        text.length 0 text).2,
      (scanWithFuel_bound_chain tryBracket (fun _ _ _ h => tryBracket_len h)
        text.length 0 text).2⟩
  · intro m relFile text k
    exact lookupOccs_foldl_push (fileOccs relFile text) m k

/- ### C9 -/

theorem replAll_append (c : Char) (r : Str) (a b : Str) :
    replAll c r (a ++ b) = replAll c r a ++ replAll c r b := by
  induction a with
  | nil => simp [replAll]
  | cons x xs ih => simp [replAll, ih, List.append_assoc]

theorem escapeHtmlL_append (a b : Str) :
    escapeHtmlL (a ++ b) = escapeHtmlL a ++ escapeHtmlL b := by
  simp [escapeHtmlL, replAll_append]

theorem escapeHtmlL_cons (c : Char) (l : Str) :
    escapeHtmlL (c :: l) = escapeHtmlL [c] ++ escapeHtmlL l := by
  have h : (c :: l) = [c] ++ l := rfl
  rw [h, escapeHtmlL_append]

theorem escape_amp : escapeHtmlL ['&'] = '&' :: 'a' :: 'm' :: 'p' :: ';' :: [] := by decide

theorem escape_lt : escapeHtmlL ['<'] = '&' :: 'l' :: 't' :: ';' :: [] := by decide

theorem escape_gt : escapeHtmlL ['>'] = '&' :: 'g' :: 't' :: ';' :: [] := by decide

theorem escape_dq : escapeHtmlL [dqC] = '&' :: 'q' :: 'u' :: 'o' :: 't' :: ';' :: [] := by
  decide

theorem escape_sq : escapeHtmlL [sqC] = '&' :: '#' :: '0' :: '3' :: '9' :: ';' :: [] := by
  decide

theorem escape_other {c : Char} (h1 : c ≠ '&') (h2 : c ≠ '<') (h3 : c ≠ '>')
    (h4 : c ≠ dqC) (h5 : c ≠ sqC) : escapeHtmlL [c] = [c] := by
  simp [escapeHtmlL, replAll, h1, h2, h3, h4, h5]

theorem okB_entity_amp (rest : Str) :
    okB (('&' :: 'a' :: 'm' :: 'p' :: ';' :: []) ++ rest) = okB rest := by
  simp +decide [okB, entTails, List.isPrefixOf]

theorem okB_entity_lt (rest : Str) :
    okB (('&' :: 'l' :: 't' :: ';' :: []) ++ rest) = okB rest := by
  simp +decide [okB, entTails, List.isPrefixOf]

theorem okB_entity_gt (rest : Str) :
    okB (('&' :: 'g' :: 't' :: ';' :: []) ++ rest) = okB rest := by
  simp +decide [okB, entTails, List.isPrefixOf]

theorem okB_entity_quot (rest : Str) :
    okB (('&' :: 'q' :: 'u' :: 'o' :: 't' :: ';' :: []) ++ rest) = okB rest := by
  simp +decide [okB, entTails, List.isPrefixOf]

theorem okB_entity_num (rest : Str) :
    okB (('&' :: '#' :: '0' :: '3' :: '9' :: ';' :: []) ++ rest) = okB rest := by
  simp +decide [okB, entTails, List.isPrefixOf]

theorem okB_esc1 (c : Char) (rest : Str) (hrest : okB rest = true) :
    okB (escapeHtmlL [c] ++ rest) = true := by
  by_cases h1 : c = '&'
  · subst h1
    rw [escape_amp, okB_entity_amp]
    exact hrest
  by_cases h2 : c = '<'
  · subst h2
    rw [escape_lt, okB_entity_lt]
    exact hrest
  by_cases h3 : c = '>'
  · subst h3
    rw [escape_gt, okB_entity_gt]
    exact hrest
  by_cases h4 : c = dqC
  · subst h4
    rw [escape_dq, okB_entity_quot]
    exact hrest
  by_cases h5 : c = sqC
  · subst h5
    rw [escape_sq, okB_entity_num]
    exact hrest
  rw [escape_other h1 h2 h3 h4 h5]
  simp [okB, h1, h2, h3, h4, h5, hrest]

theorem okB_escapeHtmlL (l : Str) : okB (escapeHtmlL l) = true := by
  induction l with
  | nil => decide
  | cons c l ih =>
    rw [escapeHtmlL_cons]
    exact okB_esc1 c _ ih

theorem esc1_no_specials (c : Char) :
    '<' ∉ escapeHtmlL [c] ∧ '>' ∉ escapeHtmlL [c] ∧
      dqC ∉ escapeHtmlL [c] ∧ sqC ∉ escapeHtmlL [c] := by
  by_cases h1 : c = '&'
  · subst h1
    decide
  by_cases h2 : c = '<'
  · subst h2
    decide
  by_cases h3 : c = '>'
  · subst h3
    decide
  by_cases h4 : c = dqC
  · subst h4
    decide
  by_cases h5 : c = sqC
  · subst h5
    decide
  rw [escape_other h1 h2 h3 h4 h5]
  refine ⟨?_, ?_, ?_, ?_⟩ <;> simp only [List.mem_singleton] <;> intro hh
  · exact h2 hh.symm
  · exact h3 hh.symm
  · exact h4 hh.symm
  · exact h5 hh.symm

theorem escape_no_specials (l : Str) :
    '<' ∉ escapeHtmlL l ∧ '>' ∉ escapeHtmlL l ∧
      dqC ∉ escapeHtmlL l ∧ sqC ∉ escapeHtmlL l := by
  induction l with
  | nil => decide
  | cons c l ih =>
    rw [escapeHtmlL_cons]
    have h1 := esc1_no_specials c
    simp only [List.mem_append, not_or]
    exact ⟨⟨h1.1, ih.1⟩, ⟨h1.2.1, ih.2.1⟩, ⟨h1.2.2.1, ih.2.2.1⟩, ⟨h1.2.2.2, ih.2.2.2⟩⟩

theorem count_escapeHtml_lt (s : String) : (escapeHtml s).data.count '<' = 0 :=
  List.count_eq_zero.mpr (escape_no_specials s.data).1

theorem count_escapeHtml_gt (s : String) : (escapeHtml s).data.count '>' = 0 :=
  List.count_eq_zero.mpr (escape_no_specials s.data).2.1

theorem count_escapeHtml_dq (s : String) : (escapeHtml s).data.count dqC = 0 :=
  List.count_eq_zero.mpr (escape_no_specials s.data).2.2.1

theorem count_escapeHtml_sq (s : String) : (escapeHtml s).data.count sqC = 0 :=
  List.count_eq_zero.mpr (escape_no_specials s.data).2.2.2

theorem str_data_append (a b : String) : (a ++ b).data = a.data ++ b.data := rfl

/-- C9: the escaping function's output contains no literal `<`, `>`, `"` or
quote character and every `&` in it begins one of the five entities it writes
(`okB`); consequently, since every textual value interpolated into a markup
item passes through `escapeHtml`, the number of `<` and `"` characters of each
rendered item is a template constant, independent of the data. -/
theorem c9_markup_escaping :
    (∀ l : Str, okB (escapeHtmlL l) = true) ∧
    (∀ s : String,
      (escapeHtml s).data.count '<' = 0 ∧ (escapeHtml s).data.count '>' = 0 ∧
      (escapeHtml s).data.count dqC = 0 ∧ (escapeHtml s).data.count sqC = 0) ∧
    (∀ k ty f ln w : String,
      (renderRiskyItem k ty f ln w).data.count '<' = 8 ∧
      (renderRiskyItem k ty f ln w).data.count dqC = 4) ∧
    (∀ k ws : String,
      (renderMissingItem k ws).data.count '<' = 6 ∧
      (renderMissingItem k ws).data.count dqC = 2) ∧
    (∀ k : String,
      (renderUnusedItem k).data.count '<' = 4 ∧
      (renderUnusedItem k).data.count dqC = 0) := by
  refine ⟨okB_escapeHtmlL, ?_, ?_, ?_, ?_⟩
  · intro s
    exact ⟨count_escapeHtml_lt s, count_escapeHtml_gt s, count_escapeHtml_dq s,
      count_escapeHtml_sq s⟩
  · intro k ty f ln w
    constructor <;>
      · simp only [renderRiskyItem, str_data_append, List.count_append,
          count_escapeHtml_lt, count_escapeHtml_dq]
        decide
  · intro k ws
    constructor <;>
      · simp only [renderMissingItem, str_data_append, List.count_append,
          count_escapeHtml_lt, count_escapeHtml_dq]
        decide
  · intro k
    constructor <;>
      · simp only [renderUnusedItem, str_data_append, List.count_append,
          count_escapeHtml_lt, count_escapeHtml_dq]
        decide

/- ### C8 -/

set_option maxRecDepth 40000 in
/-- C8 counterexample: the emitted markup has five metric tiles, not four —
`metricTiles` lists Files, Env vars, Missing, Risky, Unused (scan.js 355-359),
and the tile style fragment occurs five times in a concretely rendered
report. -/
theorem c8_markup_counterexample :
    ¬ ((metricTiles ⟨1, 0, 0, 0, 0⟩).length = 4 ∧
        countSub sampleHtml.data tileMarker = 4) := by
  decide

set_option maxRecDepth 40000 in
/-- C8 amended: the markup report contains exactly five metric tiles and
exactly three findings sections mirroring the console summary
(critical/missing, warnings/risky, info/unused). -/
theorem c8_markup_tiles_sections :
    (∀ t : Totals, (metricTiles t).length = 5) ∧
    (∀ a b c : String, (findingsSections a b c).length = 3) ∧
    countSub sampleHtml.data tileMarker = 5 ∧
    countSub sampleHtml.data ("<h2>".toList) = 3 := by
  refine ⟨fun t => rfl, fun a b c => rfl, by decide, by decide⟩
